import Mathlib

/-!
Verification of the spellchecker core from `src/spellcheck.js`.

The source has two computational functions:

* `sequenceTable(s1, s2)` — a weighted edit distance computed by filling an
  `(m+1) × (n+1)` dynamic-programming table row by row, with gap cost 2 and a
  vowel-aware substitution cost, returning the bottom-right cell `dp[m][n]`;
* `getSuggestions(input)` — maps every dictionary word to its distance from the
  input, sorts the pairs ascending by distance (JavaScript `Array.prototype.sort`,
  stable per ES2019, with comparator `a.distance - b.distance`), keeps the first
  ten entries, and returns their words.

Strings are modelled as lists of characters; the global `dictionary` array is
passed explicitly.  The imperative table fill becomes explicit state passing:
`dpRow s1 s2 i` is row `i` of the table (computed from row `i-1` exactly as the
inner `j` loop does), and `sequenceTable` reads the last cell of the last row.
-/

namespace Spellcheck

/-- `isVowel` (src/spellcheck.js lines 30-32): membership in `"aeiouAEIOU"`. -/
def isVowel (char : Char) : Bool :=
  "aeiouAEIOU".toList.contains char

/-- The substitution cost of the inner loop (src/spellcheck.js lines 49-62):
0 on an exact match, 1 on a vowel/vowel mismatch, 1 on a consonant/consonant
mismatch, 3 on a cross-category mismatch. -/
def transitionCost (char1 char2 : Char) : Nat :=
  if char1 = char2 then 0
  else if isVowel char1 && isVowel char2 then 1
  else if !isVowel char1 && !isVowel char2 then 1
  else 3

/-- The inner `j` loop of `sequenceTable` (src/spellcheck.js lines 48-70):
given the character `char1 = s1[i-1]` of the current row, the remaining
characters of `s2`, the suffix of the previous row starting at the diagonal
cell, and the cell to the left, it produces the cells `dp[i][j]` for the
remaining columns.  Each cell is
`min(min(up + 2, left + 2), diag + transitionCost)`, matching
`Math.min(dp[i-1][j] + 2, dp[i][j-1] + 2, dp[i-1][j-1] + cost)`. -/
def rowAux (char1 : Char) : List Char → List Nat → Nat → List Nat
  | [], _, _ => []
  | _ :: _, [], _ => []
  | char2 :: s2, diag :: prevRest, left =>
      let cell := min (min (prevRest.headD 0 + 2) (left + 2))
        (diag + transitionCost char1 char2)
      cell :: rowAux char1 s2 prevRest cell

/-- Row `i` of the dynamic-programming table of `sequenceTable`:
row 0 is `[0, 2, 4, …, 2n]` (line 44, `dp[0][j] = j * 2`), and row `i+1`
starts with `2*(i+1)` (line 43, `dp[i][0] = i * 2`) followed by the cells the
inner loop computes from row `i`. -/
def dpRow (s1 s2 : List Char) : Nat → List Nat
  | 0 => (List.range (s2.length + 1)).map (fun j => 2 * j)
  | i + 1 => 2 * (i + 1) :: rowAux (s1.getD i ' ') s2 (dpRow s1 s2 i) (2 * (i + 1))

/-- `sequenceTable` (src/spellcheck.js lines 37-74): fill the table and return
the bottom-right cell `dp[m][n]`. -/
def sequenceTable (s1 s2 : List Char) : Nat :=
  (dpRow s1 s2 s1.length).getLastD 0

/-- The dynamic-programming table exactly as the spec states it, cell by cell:
`dpSpecCol s1 s2 prev i` is row `i+1` as a function of the column index, given
row `i` as the function `prev`; column 0 is `2*(i+1)` and column `j+1` is
`min(min(dp[i][j+1] + 2, dp[i+1][j] + 2), dp[i][j] + cost(s1[i], s2[j]))`. -/
def dpSpecCol (s1 s2 : List Char) (prev : Nat → Nat) (i : Nat) : Nat → Nat
  | 0 => 2 * (i + 1)
  | j + 1 => min (min (prev (j + 1) + 2) (dpSpecCol s1 s2 prev i j + 2))
      (prev j + transitionCost (s1.getD i ' ') (s2.getD j ' '))

/-- The spec's table itself: `dpSpec s1 s2 i j` is `dp[i][j]`, with
`dp[0][j] = 2j` and row `i+1` given by `dpSpecCol` from row `i`. -/
def dpSpec (s1 s2 : List Char) : Nat → Nat → Nat
  | 0 => fun j => 2 * j
  | i + 1 => dpSpecCol s1 s2 (dpSpec s1 s2 i) i

/-- The `distances` intermediate of `getSuggestions` (src/spellcheck.js lines
80-83): each dictionary word paired with its distance from the input. -/
def distancesOf (input : List Char) (dict : List (List Char)) :
    List (List Char × Nat) :=
  dict.map (fun word => (word, sequenceTable input word))

/-- The comparator of the sort in `getSuggestions` (line 85,
`(a, b) => a.distance - b.distance`), as the ascending-distance order used by
the stable sort. -/
def byDistance (a b : List Char × Nat) : Bool :=
  decide (a.2 ≤ b.2)

/-- `getSuggestions` (src/spellcheck.js lines 78-88): empty input short-circuits
to `[]` (`if (!input) return []`); otherwise sort the word/distance pairs by
ascending distance with a stable sort (ES2019 `Array.prototype.sort`), keep the
first ten (`slice(0, 10)`), and project out the words. -/
def getSuggestions (input : List Char) (dict : List (List Char)) :
    List (List Char) :=
  if input = [] then []
  else ((((distancesOf input dict).mergeSort byDistance).take 10).map Prod.fst)

/-! ### Equations of the spec-level table -/

lemma dpSpec_zero (s1 s2 : List Char) (j : Nat) : dpSpec s1 s2 0 j = 2 * j := rfl

lemma dpSpec_succ_zero (s1 s2 : List Char) (i : Nat) :
    dpSpec s1 s2 (i + 1) 0 = 2 * (i + 1) := rfl

lemma dpSpec_base (s1 s2 : List Char) (i : Nat) : dpSpec s1 s2 i 0 = 2 * i := by
  cases i <;> rfl

lemma dpSpec_succ_succ (s1 s2 : List Char) (i j : Nat) :
    dpSpec s1 s2 (i + 1) (j + 1) =
      min (min (dpSpec s1 s2 i (j + 1) + 2) (dpSpec s1 s2 (i + 1) j + 2))
        (dpSpec s1 s2 i j + transitionCost (s1.getD i ' ') (s2.getD j ' ')) := rfl

/-! ### Facts about the substitution cost -/

lemma transitionCost_self (a : Char) : transitionCost a a = 0 := by
  simp [transitionCost]

lemma transitionCost_eq_zero_iff (a b : Char) : transitionCost a b = 0 ↔ a = b := by
  rw [transitionCost]
  split_ifs with h1 h2 h3 <;> simp [h1]

lemma transitionCost_comm (a b : Char) : transitionCost a b = transitionCost b a := by
  by_cases h : a = b
  · subst h; rfl
  · have h' : ¬ b = a := fun hh => h hh.symm
    simp only [transitionCost, if_neg h, if_neg h']
    cases ha : isVowel a <;> cases hb : isVowel b <;> simp

/-! ### The row fill computes the spec-level table -/

lemma rowAux_spec (s1 s2 : List Char) (i : Nat) :
    ∀ (t : List Char) (j : Nat), s2.drop j = t →
      rowAux (s1.getD i ' ') t
          ((List.range' j (s2.length + 1 - j)).map (dpSpec s1 s2 i))
          (dpSpec s1 s2 (i + 1) j)
        = (List.range' (j + 1) (s2.length - j)).map (dpSpec s1 s2 (i + 1)) := by
  intro t
  induction t with
  | nil =>
    intro j h
    have hlen : s2.length - j = 0 := by
      have := congrArg List.length h
      simpa using this
    rw [hlen]
    simp [rowAux]
  | cons char2 t' ih =>
    intro j h
    have hlen : s2.length - j = t'.length + 1 := by
      have := congrArg List.length h
      simp only [List.length_drop, List.length_cons] at this
      omega
    have hchar : s2.getD j ' ' = char2 := by
      have h0 : s2[j]? = some char2 := by
        have hd := List.getElem?_drop s2 j 0
        rw [h] at hd
        simpa using hd.symm
      simp [List.getD_eq_getElem?_getD, h0]
    have hdrop : s2.drop (j + 1) = t' := by
      have hdd : s2.drop (j + 1) = (s2.drop j).drop 1 := by
        rw [List.drop_drop]
      rw [hdd, h]
      rfl
    have hcount : s2.length + 1 - j = t'.length + 2 := by omega
    rw [hlen, hcount, List.range'_succ, List.map_cons, List.range'_succ, List.map_cons]
    simp only [rowAux, List.headD_cons]
    rw [← hchar, ← dpSpec_succ_succ]
    have ih' := ih (j + 1) hdrop
    rw [show s2.length + 1 - (j + 1) = t'.length + 1 from by omega,
        show s2.length - (j + 1) = t'.length from by omega,
        List.range'_succ, List.map_cons] at ih'
    rw [List.map_cons]
    exact congrArg (dpSpec s1 s2 (i + 1) (j + 1) :: ·) ih'

lemma dpRow_eq (s1 s2 : List Char) (i : Nat) :
    dpRow s1 s2 i = (List.range (s2.length + 1)).map (dpSpec s1 s2 i) := by
  induction i with
  | zero => rfl
  | succ i ih =>
    have h0 := rowAux_spec s1 s2 i s2 0 (by simp)
    rw [Nat.sub_zero, Nat.sub_zero, ← List.range_eq_range'] at h0
    rw [dpRow, ih, show (2 * (i + 1) : Nat) = dpSpec s1 s2 (i + 1) 0 from rfl, h0,
        List.range_eq_range' (s2.length + 1), List.range'_succ, List.map_cons]

lemma sequenceTable_eq_dpSpec (s1 s2 : List Char) :
    sequenceTable s1 s2 = dpSpec s1 s2 s1.length s2.length := by
  rw [sequenceTable, dpRow_eq, List.range_succ, List.map_append]
  simp

/-! ### Properties of the distance -/

lemma dpSpec_self_diag (w : List Char) : ∀ i, dpSpec w w i i = 0
  | 0 => rfl
  | i + 1 => by
    rw [dpSpec_succ_succ, dpSpec_self_diag w i, transitionCost_self]
    simp

lemma dpSpec_le_gap (s1 s2 : List Char) (i j : Nat) :
    dpSpec s1 s2 i j ≤ 2 * (i + j) := by
  induction i generalizing j with
  | zero => rw [dpSpec_zero]; omega
  | succ i ih =>
    cases j with
    | zero => rw [dpSpec_succ_zero]
    | succ j =>
      rw [dpSpec_succ_succ]
      have h1 := ih (j + 1)
      omega

lemma dpSpec_comm (s1 s2 : List Char) (i j : Nat) :
    dpSpec s1 s2 i j = dpSpec s2 s1 j i := by
  induction i generalizing j with
  | zero => rw [dpSpec_zero, dpSpec_base]
  | succ i ih =>
    induction j with
    | zero => rw [dpSpec_succ_zero, dpSpec_zero]
    | succ j ihj =>
      rw [dpSpec_succ_succ, dpSpec_succ_succ, ih (j + 1), ihj, ih j,
        transitionCost_comm]
      omega

lemma dpSpec_eq_zero (s1 s2 : List Char) (i j : Nat) (hi : i ≤ s1.length)
    (hj : j ≤ s2.length) (h : dpSpec s1 s2 i j = 0) :
    i = j ∧ s1.take i = s2.take j := by
  induction i generalizing j with
  | zero =>
    rw [dpSpec_zero] at h
    have hj0 : j = 0 := by omega
    subst hj0
    exact ⟨rfl, rfl⟩
  | succ i ih =>
    cases j with
    | zero => rw [dpSpec_succ_zero] at h; omega
    | succ j =>
      rw [dpSpec_succ_succ] at h
      have hd : dpSpec s1 s2 i j = 0 := by omega
      have hc : transitionCost (s1.getD i ' ') (s2.getD j ' ') = 0 := by omega
      have hch : s1.getD i ' ' = s2.getD j ' ' := (transitionCost_eq_zero_iff _ _).mp hc
      obtain ⟨hij, htake⟩ := ih j (by omega) (by omega) hd
      have hi' : i < s1.length := by omega
      have hj' : j < s2.length := by omega
      refine ⟨by omega, ?_⟩
      rw [List.take_succ, List.take_succ, htake]
      have e1 : s1.getD i ' ' = s1[i] := by
        simp [List.getD_eq_getElem?_getD, List.getElem?_eq_getElem hi']
      have e2 : s2.getD j ' ' = s2[j] := by
        simp [List.getD_eq_getElem?_getD, List.getElem?_eq_getElem hj']
      have hel : s1[i] = s2[j] := by rw [← e1, ← e2, hch]
      rw [List.getElem?_eq_getElem hi', List.getElem?_eq_getElem hj', hel]

lemma sequenceTable_self (w : List Char) : sequenceTable w w = 0 := by
  rw [sequenceTable_eq_dpSpec, dpSpec_self_diag]

lemma sequenceTable_comm (a b : List Char) : sequenceTable a b = sequenceTable b a := by
  rw [sequenceTable_eq_dpSpec, sequenceTable_eq_dpSpec, dpSpec_comm]

lemma sequenceTable_nil_left (s : List Char) : sequenceTable [] s = 2 * s.length := by
  rw [sequenceTable_eq_dpSpec]
  simp [dpSpec_zero]

lemma sequenceTable_nil_right (s : List Char) : sequenceTable s [] = 2 * s.length := by
  rw [sequenceTable_eq_dpSpec]
  simp [dpSpec_base]

lemma sequenceTable_le_gap (a b : List Char) :
    sequenceTable a b ≤ 2 * (a.length + b.length) := by
  rw [sequenceTable_eq_dpSpec]
  exact dpSpec_le_gap _ _ _ _

lemma sequenceTable_eq_zero_iff (a b : List Char) : sequenceTable a b = 0 ↔ a = b := by
  constructor
  · intro h
    rw [sequenceTable_eq_dpSpec] at h
    obtain ⟨hl, ht⟩ := dpSpec_eq_zero a b a.length b.length le_rfl le_rfl h
    rwa [List.take_length, List.take_length] at ht
  · rintro rfl
    exact sequenceTable_self a

/-! ### Properties of the ranker -/

lemma byDistance_trans : ∀ a b c : List Char × Nat,
    byDistance a b → byDistance b c → byDistance a c := by
  intro a b c h1 h2
  simp only [byDistance, decide_eq_true_eq] at *
  omega

lemma byDistance_total : ∀ a b : List Char × Nat,
    byDistance a b || byDistance b a := by
  intro a b
  simp only [byDistance, Bool.or_eq_true, decide_eq_true_eq]
  omega

lemma mem_distancesOf {input : List Char} {dict : List (List Char)}
    {p : List Char × Nat} (h : p ∈ distancesOf input dict) :
    p.1 ∈ dict ∧ p.2 = sequenceTable input p.1 := by
  simp only [distancesOf, List.mem_map] at h
  obtain ⟨w, hw, rfl⟩ := h
  exact ⟨hw, rfl⟩

lemma length_distancesOf (input : List Char) (dict : List (List Char)) :
    (distancesOf input dict).length = dict.length := by
  simp [distancesOf]

lemma getSuggestions_of_ne (input : List Char) (dict : List (List Char))
    (h : input ≠ []) :
    getSuggestions input dict =
      (((distancesOf input dict).mergeSort byDistance).take 10).map Prod.fst := by
  rw [getSuggestions, if_neg h]

lemma getSuggestions_nil_input (dict : List (List Char)) :
    getSuggestions [] dict = [] := rfl

lemma getSuggestions_nil_dict (input : List Char) :
    getSuggestions input [] = [] := by
  rw [getSuggestions]
  split
  · rfl
  · simp [distancesOf]

lemma getSuggestions_length (input : List Char) (dict : List (List Char))
    (h : input ≠ []) :
    (getSuggestions input dict).length = min 10 dict.length := by
  rw [getSuggestions_of_ne _ _ h, List.length_map, List.length_take,
    List.length_mergeSort, length_distancesOf]

lemma sorted_suggestions (input : List Char) (dict : List (List Char))
    (h : input ≠ []) :
    (getSuggestions input dict).Pairwise
      (fun u v => sequenceTable input u ≤ sequenceTable input v) := by
  rw [getSuggestions_of_ne _ _ h]
  have hs : ((distancesOf input dict).mergeSort byDistance).Pairwise
      (fun a b => byDistance a b) :=
    List.sorted_mergeSort byDistance_trans byDistance_total _
  have ht : (((distancesOf input dict).mergeSort byDistance).take 10).Pairwise
      (fun a b => byDistance a b) :=
    hs.sublist (List.take_sublist _ _)
  rw [List.pairwise_map]
  refine ht.imp_of_mem ?_
  intro a b ha hb hab
  have ha' := mem_distancesOf (List.mem_mergeSort.mp (List.mem_of_mem_take ha))
  have hb' := mem_distancesOf (List.mem_mergeSort.mp (List.mem_of_mem_take hb))
  rw [← ha'.2, ← hb'.2]
  simpa [byDistance] using hab

lemma stable_suggestions (input : List Char) (dict : List (List Char))
    (u v : List Char) (hsub : [u, v].Sublist dict)
    (heq : sequenceTable input u = sequenceTable input v) :
    [u, v].Sublist (((distancesOf input dict).mergeSort byDistance).map Prod.fst) := by
  have h1 : [(u, sequenceTable input u), (v, sequenceTable input v)].Sublist
      (distancesOf input dict) := by
    have hm := hsub.map (fun w => (w, sequenceTable input w))
    simpa [distancesOf] using hm
  have hab : byDistance (u, sequenceTable input u) (v, sequenceTable input v) := by
    simp [byDistance, heq]
  have h2 := List.pair_sublist_mergeSort byDistance_trans byDistance_total hab h1
  have h3 := h2.map Prod.fst
  simpa using h3

lemma roundtrip_head (dict : List (List Char)) (w : List Char)
    (hmem : w ∈ dict) (hne : w ≠ []) :
    (getSuggestions w dict).head? = some w := by
  rw [getSuggestions_of_ne _ _ hne]
  have hw0 : (w, 0) ∈ distancesOf w dict := by
    simp only [distancesOf, List.mem_map]
    exact ⟨w, hmem, by rw [sequenceTable_self]⟩
  have hmem' : (w, 0) ∈ (distancesOf w dict).mergeSort byDistance :=
    List.mem_mergeSort.mpr hw0
  obtain ⟨p, t, hpt⟩ :
      ∃ p t, (distancesOf w dict).mergeSort byDistance = p :: t := by
    cases hcase : (distancesOf w dict).mergeSort byDistance with
    | nil => rw [hcase] at hmem'; simp at hmem'
    | cons p t => exact ⟨p, t, rfl⟩
  have hsorted : ((distancesOf w dict).mergeSort byDistance).Pairwise
      (fun a b => byDistance a b) :=
    List.sorted_mergeSort byDistance_trans byDistance_total _
  have hp2 : p.2 = 0 := by
    rw [hpt] at hmem' hsorted
    rcases List.mem_cons.mp hmem' with he | ht
    · rw [← he]
    · have hle := (List.pairwise_cons.mp hsorted).1 _ ht
      simp only [byDistance, decide_eq_true_eq] at hle
      omega
  have hpmem : p ∈ distancesOf w dict := by
    have hpr : p ∈ (distancesOf w dict).mergeSort byDistance := by
      rw [hpt]
      exact List.mem_cons_self p t
    exact List.mem_mergeSort.mp hpr
  obtain ⟨hpd, hpseq⟩ := mem_distancesOf hpmem
  have hw : p.1 = w := by
    have h0 : sequenceTable w p.1 = 0 := by rw [← hpseq, hp2]
    exact ((sequenceTable_eq_zero_iff _ _).mp h0).symm
  rw [hpt, show (10 : Nat) = 9 + 1 from rfl, List.take_succ_cons, List.map_cons,
    List.head?_cons, hw]

/-! ### Concrete ranking scenarios -/

lemma getSuggestions_cat :
    getSuggestions "cat".toList ["cat".toList, "bat".toList, "cot".toList] =
      ["cat".toList, "bat".toList, "cot".toList] := by
  have hd : distancesOf "cat".toList ["cat".toList, "bat".toList, "cot".toList] =
      [("cat".toList, 0), ("bat".toList, 1), ("cot".toList, 1)] := by decide
  have hs : [("cat".toList, 0), ("bat".toList, 1),
      ("cot".toList, 1)].Pairwise (fun a b => byDistance a b) := by decide
  rw [getSuggestions_of_ne _ _ (by decide), hd, List.mergeSort_of_sorted hs]
  decide

lemma getSuggestions_hwllo :
    getSuggestions "hwllo".toList
        ["hello".toList, "hallo".toList, "jello".toList, "world".toList] =
      ["hello".toList, "hallo".toList, "jello".toList, "world".toList] := by
  have hd : distancesOf "hwllo".toList
        ["hello".toList, "hallo".toList, "jello".toList, "world".toList] =
      [("hello".toList, 3), ("hallo".toList, 3), ("jello".toList, 4),
        ("world".toList, 7)] := by decide
  have hs : [("hello".toList, 3), ("hallo".toList, 3), ("jello".toList, 4),
      ("world".toList, 7)].Pairwise (fun a b => byDistance a b) := by decide
  rw [getSuggestions_of_ne _ _ (by decide), hd, List.mergeSort_of_sorted hs]
  decide

/-! ### Closed form of the cost model -/

lemma isVowel_eq (c : Char) :
    isVowel c = ['a', 'e', 'i', 'o', 'u', 'A', 'E', 'I', 'O', 'U'].contains c := rfl

lemma transitionCost_eq (a b : Char) :
    transitionCost a b =
      if a = b then 0 else if isVowel a = isVowel b then 1 else 3 := by
  rw [transitionCost]
  by_cases h : a = b
  · simp [h]
  · simp only [if_neg h]
    cases ha : isVowel a <;> cases hb : isVowel b <;> simp [ha, hb]

-- sanity checks on concrete values (kept as anonymous examples)
example : sequenceTable "a".toList "e".toList = 1 := by decide
example : sequenceTable "b".toList "c".toList = 1 := by decide
example : sequenceTable "a".toList "b".toList = 3 := by decide
example : sequenceTable "a".toList "bb".toList = 5 := by decide
example : sequenceTable "cat".toList "bat".toList = 1 := by decide
example : sequenceTable "cat".toList "cot".toList = 1 := by decide
example : sequenceTable "hwllo".toList "hello".toList = 3 := by decide
example : sequenceTable "hwllo".toList "hallo".toList = 3 := by decide
example : sequenceTable "hwllo".toList "jello".toList = 4 := by decide
example : sequenceTable "hwllo".toList "world".toList = 7 := by decide

/-! ### The claims -/

/-- C1: for all character sequences s1 (length m) and s2 (length n), the
distance equals dp[m][n] of the table with dp[i][0] = 2i, dp[0][j] = 2j and
dp[i][j] = min(dp[i-1][j]+2, dp[i][j-1]+2, dp[i-1][j-1]+cost(s1[i-1], s2[j-1])),
where the cost is 0 on equal characters, 1 when both or neither of the two
characters are vowels (vowel set {a,e,i,o,u}, case-insensitive, every other
character counting as a consonant), and 3 when exactly one is a vowel. -/
theorem claim1_distance_is_dp_table :
    ∀ s1 s2 : List Char,
      sequenceTable s1 s2 = dpSpec s1 s2 s1.length s2.length ∧
      (∀ i, dpSpec s1 s2 i 0 = 2 * i) ∧
      (∀ j, dpSpec s1 s2 0 j = 2 * j) ∧
      (∀ i j, dpSpec s1 s2 (i + 1) (j + 1) =
        min (min (dpSpec s1 s2 i (j + 1) + 2) (dpSpec s1 s2 (i + 1) j + 2))
          (dpSpec s1 s2 i j + transitionCost (s1.getD i ' ') (s2.getD j ' '))) ∧
      (∀ a b : Char, transitionCost a b =
        if a = b then 0 else if isVowel a = isVowel b then 1 else 3) ∧
      (∀ c : Char,
        isVowel c = ['a', 'e', 'i', 'o', 'u', 'A', 'E', 'I', 'O', 'U'].contains c) :=
  fun s1 s2 =>
    ⟨sequenceTable_eq_dpSpec s1 s2, dpSpec_base s1 s2, dpSpec_zero s1 s2,
      dpSpec_succ_succ s1 s2, transitionCost_eq, isVowel_eq⟩

/-- C2: for every non-empty input and every dictionary, the output of the
ranker is the 10-element prefix of the stable sort of the word/distance pairs:
its distances are ascending, and any two words of the dictionary with equal
distance occur in the sorted sequence in dictionary order; in particular, for
dictionary ["cat", "bat", "cot"] and input "cat" the result is
["cat", "bat", "cot"]. -/
theorem claim2_sorted_and_stable :
    (∀ (input : List Char) (dict : List (List Char)), input ≠ [] →
      (getSuggestions input dict).Pairwise
        (fun u v => sequenceTable input u ≤ sequenceTable input v) ∧
      getSuggestions input dict =
        (((distancesOf input dict).mergeSort byDistance).take 10).map Prod.fst ∧
      (∀ u v : List Char, [u, v].Sublist dict →
        sequenceTable input u = sequenceTable input v →
        [u, v].Sublist
          (((distancesOf input dict).mergeSort byDistance).map Prod.fst))) ∧
    getSuggestions "cat".toList ["cat".toList, "bat".toList, "cot".toList] =
      ["cat".toList, "bat".toList, "cot".toList] :=
  ⟨fun input dict h =>
    ⟨sorted_suggestions input dict h, getSuggestions_of_ne input dict h,
      fun u v hsub heq => stable_suggestions input dict u v hsub heq⟩,
    getSuggestions_cat⟩

/-- C2 witness: the sortedness and stability parts instantiated on the
dictionary ["cat", "bat", "cot"] with input "cat". -/
theorem claim2_witness :
    (getSuggestions "cat".toList ["cat".toList, "bat".toList, "cot".toList]).Pairwise
      (fun u v => sequenceTable "cat".toList u ≤ sequenceTable "cat".toList v) ∧
    ["bat".toList, "cot".toList].Sublist
      (((distancesOf "cat".toList
          ["cat".toList, "bat".toList, "cot".toList]).mergeSort byDistance).map
        Prod.fst) :=
  ⟨(claim2_sorted_and_stable.1 _ _ (by decide)).1,
    (claim2_sorted_and_stable.1 _ _ (by decide)).2.2 _ _ (by decide) (by decide)⟩

/-- C3 counterexample: the code has no limit argument, so the claimed length
law fails for any limit other than the hard-coded 10: with a four-word
dictionary and limit 3, the claim predicts 3 suggestions but the code
returns 4. -/
theorem claim3_counterexample :
    (getSuggestions "test".toList [['a'], ['b'], ['c'], ['d']]).length ≠
      min 3 [['a'], ['b'], ['c'], ['d']].length := by
  rw [getSuggestions_length _ _ (by decide)]
  decide

/-- C3 (amended): the suggestion count is hard-coded to 10; for every
non-empty input the result length is min(10, length of the dictionary). -/
theorem claim3_length :
    ∀ (input : List Char) (dict : List (List Char)), input ≠ [] →
      (getSuggestions input dict).length = min 10 dict.length :=
  getSuggestions_length

/-- C3 witness: the amended length law at input "cat" over a two-word
dictionary. -/
theorem claim3_witness :
    (getSuggestions "cat".toList ["cat".toList, "dog".toList]).length =
      min 10 ["cat".toList, "dog".toList].length :=
  claim3_length _ _ (by decide)

/-- C4: the ranker returns the empty sequence on an empty input (no ranking is
performed) and on an empty dictionary, in both cases without any error. -/
theorem claim4_empty_cases :
    (∀ dict : List (List Char), getSuggestions [] dict = []) ∧
    (∀ input : List Char, getSuggestions input [] = []) :=
  ⟨getSuggestions_nil_input, getSuggestions_nil_dict⟩

/-- C5: the distance from the empty sequence to s, in either direction,
is twice the length of s. -/
theorem claim5_empty_distance :
    ∀ s : List Char,
      sequenceTable [] s = 2 * s.length ∧ sequenceTable s [] = 2 * s.length :=
  fun s => ⟨sequenceTable_nil_left s, sequenceTable_nil_right s⟩

/-- C6: the distance of every word to itself is 0. -/
theorem claim6_identity : ∀ w : List Char, sequenceTable w w = 0 :=
  sequenceTable_self

/-- C7 counterexample: the distance does exceed 2·max(len a, len b): for
a = "a" and b = "bb" the distance is 5 while 2·max(1, 2) = 4. -/
theorem claim7_counterexample :
    ¬ (sequenceTable "a".toList "bb".toList ≤
        2 * max "a".toList.length "bb".toList.length) := by
  decide

/-- C7 (amended): the distance is a non-negative integer bounded by the
pure-gap-cost path: distance(a, b) ≤ 2·(len a + len b). -/
theorem claim7_bound :
    ∀ a b : List Char,
      0 ≤ sequenceTable a b ∧ sequenceTable a b ≤ 2 * (a.length + b.length) :=
  fun a b => ⟨Nat.zero_le _, sequenceTable_le_gap a b⟩

/-- C8: for every dictionary containing a word w, querying the ranker with w
itself as the (non-empty) input yields w as the first suggestion, at
distance 0. -/
theorem claim8_roundtrip :
    ∀ (dict : List (List Char)) (w : List Char), w ∈ dict → w ≠ [] →
      (getSuggestions w dict).head? = some w ∧ sequenceTable w w = 0 :=
  fun dict w hmem hne => ⟨roundtrip_head dict w hmem hne, sequenceTable_self w⟩

/-- C8 witness: the round trip on the word "bat" in the dictionary
["cat", "bat"]. -/
theorem claim8_witness :
    (getSuggestions "bat".toList ["cat".toList, "bat".toList]).head? =
        some "bat".toList ∧
      sequenceTable "bat".toList "bat".toList = 0 :=
  claim8_roundtrip _ _ (by decide) (by decide)

/-- C9: for dictionary ["hello", "hallo", "jello", "world"] and input "hwllo",
the full result is ["hello", "hallo", "jello", "world"]; in particular "hello"
and "hallo" rank strictly above "world" and "hello" ranks at or above
"hallo". -/
theorem claim9_scenario :
    getSuggestions "hwllo".toList
        ["hello".toList, "hallo".toList, "jello".toList, "world".toList] =
      ["hello".toList, "hallo".toList, "jello".toList, "world".toList] ∧
    (getSuggestions "hwllo".toList
        ["hello".toList, "hallo".toList, "jello".toList, "world".toList]).indexOf
        "hello".toList <
      (getSuggestions "hwllo".toList
        ["hello".toList, "hallo".toList, "jello".toList, "world".toList]).indexOf
        "world".toList ∧
    (getSuggestions "hwllo".toList
        ["hello".toList, "hallo".toList, "jello".toList, "world".toList]).indexOf
        "hallo".toList <
      (getSuggestions "hwllo".toList
        ["hello".toList, "hallo".toList, "jello".toList, "world".toList]).indexOf
        "world".toList ∧
    (getSuggestions "hwllo".toList
        ["hello".toList, "hallo".toList, "jello".toList, "world".toList]).indexOf
        "hello".toList ≤
      (getSuggestions "hwllo".toList
        ["hello".toList, "hallo".toList, "jello".toList, "world".toList]).indexOf
        "hallo".toList := by
  rw [getSuggestions_hwllo]
  refine ⟨rfl, ?_, ?_, ?_⟩ <;> decide

/-- C10: the distance is symmetric in its two arguments. -/
theorem claim10_symmetric :
    ∀ a b : List Char, sequenceTable a b = sequenceTable b a :=
  sequenceTable_comm

end Spellcheck
